import Mathlib

/-!
Verification of the narration-synchronized frame composition engine of the
Code2Video repository against its natural-language specification.

The embedding below translates the timing, segmentation, trigger-analysis and
state-resolution code of `typewriter_avatar_renderer.py`, `semantic_animator.py`
and `avatar_renderer.py` into Lean.  Python floats are modelled as exact
rationals (`ℚ`); float literals such as `2.5` and `1.2` become the exact
rationals `5/2` and `6/5`.  A narration text is represented by its
whitespace-separated word list (the result of Python `str.split()`); the empty
text corresponds to the empty list.  Renderer configuration fields
(`max_chars_per_line`, `fade_duration`, `max_lines`) are passed as explicit
arguments; the constructor defaults are 60, 1/2 and 3.
-/

namespace Code2Video

/-- The `WordTiming` dataclass of `typewriter_avatar_renderer.py`. -/
structure WordTiming where
  word : String
  start_time : ℚ
  end_time : ℚ
  char_positions : List ℚ
deriving DecidableEq, Repr

/-- The `LineData` dataclass of `typewriter_avatar_renderer.py`. -/
structure LineData where
  words : List WordTiming
  start_time : ℚ
  end_time : ℚ
  text : String
  max_chars : ℕ
deriving DecidableEq, Repr

/-- Embedding of `TypewriterAvatarRenderer._estimate_char_timings`. -/
def _estimate_char_timings (word : String) (start_time end_time : ℚ) : List ℚ :=
  let duration := end_time - start_time
  let char_count := word.length
  if char_count = 0 then []
  else (List.range char_count).map (fun i => start_time + duration * i / char_count)

/-- The word loop of `TypewriterAvatarRenderer._estimate_word_timings`:
words are consumed in order, `current_time` accumulates each word's end. -/
def estimateAux (avg_word_duration : ℚ) : List String → ℚ → List WordTiming
  | [], _ => []
  | word :: rest, current_time =>
    let word_duration := avg_word_duration * ((word.length : ℚ) / 5)
    let end_time := current_time + word_duration
    ⟨word, current_time, end_time, _estimate_char_timings word current_time end_time⟩
      :: estimateAux avg_word_duration rest end_time

/-- Embedding of `TypewriterAvatarRenderer._estimate_word_timings` (the text
argument is represented by its whitespace-split word list). -/
def _estimate_word_timings (words : List String) (audio_duration : ℚ) : List WordTiming :=
  if words.isEmpty then []
  else estimateAux (audio_duration / (words.length : ℚ)) words 0

/-- The word loop of `TypewriterAvatarRenderer.organize_text_into_lines`.
State carried by the Python loop: the flushed lines, `current_line_words`,
`current_line_text` and `current_line_start`. -/
def organizeLoop (max_chars_per_line : ℕ) :
    List WordTiming → List WordTiming → String → ℚ →
    List LineData × List WordTiming × String × ℚ
  | [], cur, curText, curStart => ([], cur, curText, curStart)
  | wt :: rest, cur, curText, curStart =>
    let test_text := if curText = "" then wt.word else curText ++ " " ++ wt.word
    if max_chars_per_line < test_text.length ∧ cur ≠ [] then
      let r := organizeLoop max_chars_per_line rest [wt] wt.word wt.start_time
      (⟨cur, curStart, wt.start_time, curText, curText.length⟩ :: r.1, r.2)
    else
      organizeLoop max_chars_per_line rest (cur ++ [wt]) test_text curStart

/-- Embedding of `TypewriterAvatarRenderer.organize_text_into_lines`:
run the loop starting from an empty line at start 0, then flush the final
line; its end is `word_timings[-1].end_time` when the input is non-empty. -/
def organize_text_into_lines (max_chars_per_line : ℕ)
    (word_timings : List WordTiming) : List LineData :=
  let r := organizeLoop max_chars_per_line word_timings [] "" 0
  if r.2.1.isEmpty then r.1
  else
    r.1 ++ [⟨r.2.1, r.2.2.2,
      (match word_timings.getLast? with
       | some w => w.end_time
       | none => r.2.2.2), r.2.2.1, r.2.2.1.length⟩]

/-- The per-line fade computation of
`TypewriterAvatarRenderer.get_visible_lines_at_time`: `none` when the line is
not visible at `time` (before `start - fade_duration`, or trailing fade
exhausted), otherwise the fade progress that the Python code pairs with the
line. -/
def fadeAt (fade_duration : ℚ) (line : LineData) (time : ℚ) : Option ℚ :=
  if line.start_time - fade_duration ≤ time then
    if time < line.start_time then
      some ((time - (line.start_time - fade_duration)) / fade_duration)
    else if line.end_time < time then
      let fade_progress := 1 - (time - line.end_time) / fade_duration
      if fade_progress ≤ 0 then none else some fade_progress
    else some 1
  else none

/-- The line loop of `TypewriterAvatarRenderer.get_visible_lines_at_time`;
`n` is the number of lines already collected, and the loop breaks as soon as
`max_lines` lines have been appended. -/
def getVisibleAux (fade_duration : ℚ) (max_lines : ℕ) (time : ℚ) :
    List LineData → ℕ → List (LineData × ℚ)
  | [], _ => []
  | line :: rest, n =>
    match fadeAt fade_duration line time with
    | none => getVisibleAux fade_duration max_lines time rest n
    | some f =>
      if max_lines ≤ n + 1 then [(line, f)]
      else (line, f) :: getVisibleAux fade_duration max_lines time rest (n + 1)

/-- Embedding of `TypewriterAvatarRenderer.get_visible_lines_at_time`. -/
def get_visible_lines_at_time (fade_duration : ℚ) (max_lines : ℕ)
    (lines : List LineData) (time : ℚ) : List (LineData × ℚ) :=
  getVisibleAux fade_duration max_lines time lines 0

/-- Per-word contribution to `typed_chars` in
`TypewriterAvatarRenderer.get_typing_progress`: a fully spoken word counts all
its characters, a word being spoken counts the prefix of `char_positions`
already reached, a future word counts zero. -/
def wordTypedChars (w : WordTiming) (time : ℚ) : ℕ :=
  if w.end_time ≤ time then w.word.length
  else if w.start_time ≤ time then
    (w.char_positions.takeWhile (fun c => decide (c ≤ time))).length
  else 0

/-- Embedding of `TypewriterAvatarRenderer.get_typing_progress`. -/
def get_typing_progress (line : LineData) (time : ℚ) : ℕ :=
  if time < line.start_time then 0
  else min ((line.words.map (fun w => wordTypedChars w time)).sum) line.text.length

/-- One entry of the `animation_mappings` table of `semantic_animator.py`. -/
structure AnimMapping where
  type : String
  keywords : List String
  animation : String
  emoji : String
  color : ℕ × ℕ × ℕ
deriving DecidableEq, Repr

/-- The `animation_mappings` keyword table of `SemanticAnimator.__init__`,
in Python dict insertion order. -/
def animation_mappings : List AnimMapping :=
  [⟨"function", ["function", "def ", "method", "call", "invoke"],
    "function_call", "🔧", (255, 100, 100)⟩,
   ⟨"loop", ["loop", "for ", "while ", "iterate", "repeat"],
    "loop_spin", "🔄", (100, 255, 100)⟩,
   ⟨"condition", ["if ", "else", "condition", "check", "compare"],
    "condition_check", "🤔", (100, 100, 255)⟩,
   ⟨"recursion", ["recursion", "recursive", "call itself", "base case"],
    "recursion_tree", "🌳", (255, 200, 100)⟩,
   ⟨"array", ["array", "list", "element", "index", "position"],
    "array_highlight", "📊", (200, 100, 255)⟩,
   ⟨"swap", ["swap", "exchange", "switch", "interchange"],
    "swap_values", "🔄", (255, 150, 50)⟩,
   ⟨"sort", ["sort", "order", "arrange", "bubble", "quick"],
    "sort_animation", "📈", (100, 255, 200)⟩,
   ⟨"search", ["search", "find", "lookup", "binary", "linear"],
    "search_scan", "🔍", (255, 100, 200)⟩,
   ⟨"stack", ["stack", "push", "pop", "LIFO", "last in"],
    "stack_push_pop", "📚", (150, 255, 100)⟩,
   ⟨"queue", ["queue", "enqueue", "dequeue", "FIFO", "first in"],
    "queue_flow", "🚶", (100, 150, 255)⟩,
   ⟨"pointer", ["pointer", "reference", "address", "memory"],
    "pointer_move", "👆", (255, 255, 100)⟩,
   ⟨"error", ["error", "exception", "bug", "crash", "fail"],
    "error_shake", "💥", (255, 50, 50)⟩,
   ⟨"success", ["success", "correct", "working", "solved", "complete"],
    "success_check", "✅", (50, 255, 50)⟩]

/-- The default animation duration `SemanticAnimator.animation_duration`. -/
def animation_duration : ℚ := 2

/-- The trigger dict appended by `SemanticAnimator.analyze_narration`. -/
structure AnimTrigger where
  type : String
  start_time : ℚ
  duration : ℚ
  text : String
  keyword : String
  emoji : String
  color : ℕ × ℕ × ℕ
deriving DecidableEq, Repr

/-- Python `str.lower()` restricted to the ASCII range actually used by the
keyword table, via `Char.toLower` on each character. -/
def pyLower (s : String) : String := ⟨s.data.map Char.toLower⟩

/-- Python substring containment `needle in hay` on character lists. -/
def containsSub (needle : List Char) : List Char → Bool
  | [] => needle.isEmpty
  | c :: rest => needle.isPrefixOf (c :: rest) || containsSub needle rest

/-- Python `needle in hay` for strings. -/
def strIn (needle hay : String) : Bool := containsSub needle.data hay.data

/-- Embedding of `SemanticAnimator.analyze_narration` (the narration text is
represented by its whitespace-split word list).  The window comprehension
`[words[j:j+10] for j in range(0, total_words, 10)]` becomes a map over the
chunk indices; inside a window the Python `break` leaves only the inner
keyword loop, so each table entry contributes at most one trigger — the one
for its first matching keyword — and every matching entry contributes. -/
def analyze_narration (words : List String) (duration : ℚ) : List AnimTrigger :=
  let total_words := words.length
  let segment_duration := duration / ((max 1 (total_words / 10) : ℕ) : ℚ)
  (List.range ((total_words + 9) / 10)).flatMap (fun i =>
    let word_group := (words.drop (10 * i)).take 10
    let segment_text := String.intercalate (" ") word_group
    let start_time := (i : ℚ) * segment_duration
    animation_mappings.filterMap (fun m =>
      (m.keywords.find? (fun kw => strIn (pyLower kw) (pyLower segment_text))).map
        (fun kw =>
          { type := m.type, start_time := start_time, duration := animation_duration,
            text := segment_text, keyword := kw, emoji := m.emoji, color := m.color })))

/-- Embedding of `SemanticAnimator.create_animation_overlay`.  The produced
PIL image is abstracted to the name of the `_create_*_animation` branch taken
together with the computed animation progress; `none` is Python `None`. -/
def create_animation_overlay (trigger : AnimTrigger) (time : ℚ) :
    Option (String × ℚ) :=
  let anim_type := trigger.type
  let anim_start := trigger.start_time
  let anim_duration := trigger.duration
  if time < anim_start ∨ anim_start + anim_duration < time then none
  else
    let progress := (time - anim_start) / anim_duration
    if anim_type = "function_call" then some (anim_type, progress)
    else if anim_type = "loop_spin" then some (anim_type, progress)
    else if anim_type = "condition_check" then some (anim_type, progress)
    else if anim_type = "recursion_tree" then some (anim_type, progress)
    else if anim_type = "array_highlight" then some (anim_type, progress)
    else if anim_type = "swap_values" then some (anim_type, progress)
    else if anim_type = "sort_animation" then some (anim_type, progress)
    else if anim_type = "search_scan" then some (anim_type, progress)
    else if anim_type = "stack_push_pop" then some (anim_type, progress)
    else if anim_type = "queue_flow" then some (anim_type, progress)
    else if anim_type = "pointer_move" then some (anim_type, progress)
    else if anim_type = "error_shake" then some (anim_type, progress)
    else if anim_type = "success_check" then some (anim_type, progress)
    else none

/-- One speech-bubble segment dict of
`AvatarVideoRenderer._split_narration_into_segments`. -/
structure SpeechSegment where
  text : String
  start : ℚ
  duration : ℚ
deriving DecidableEq, Repr

/-- The five hard-coded placeholder segments substituted by
`AvatarVideoRenderer._split_narration_into_segments` for empty narration. -/
def defaultSegments : List SpeechSegment :=
  [⟨"Hi! I'm your AI assistant! 👋", 0, 2⟩,
   ⟨"Let me explain this code step by step! 💻", 2, 2⟩,
   ⟨"This is really interesting code! 🤔", 4, 2⟩,
   ⟨"Let me break it down for you! ✨", 6, 2⟩,
   ⟨"That's how it works! 🎉", 8, 2⟩]

/-- The segment loop of `AvatarVideoRenderer._split_narration_into_segments`:
`for i in range(0, total_words, words_per_segment)` with a `break` once the
accumulated time reaches `duration`.  The fuel argument (instantiated with the
total word count, an upper bound on the number of iterations since each one
consumes at least `words_per_segment ≥ 2` words) makes the recursion
structural. -/
def segLoop (words_per_segment : ℕ) (words_per_second : ℚ) (duration : ℚ) :
    ℕ → List String → ℚ → List SpeechSegment
  | 0, _, _ => []
  | _ + 1, [], _ => []
  | fuel + 1, w :: rem, current_time =>
    let segment_words := (w :: rem).take words_per_segment
    let segment_text := String.intercalate (" ") segment_words
    let actual_duration := (segment_words.length : ℚ) / words_per_second
    let seg : SpeechSegment := ⟨segment_text, current_time, actual_duration⟩
    if duration ≤ current_time + actual_duration then [seg]
    else seg :: segLoop words_per_segment words_per_second duration fuel
      ((w :: rem).drop words_per_segment) (current_time + actual_duration)

/-- The final adjustment of `_split_narration_into_segments`: clip the last
segment so that it ends exactly at `duration` when it overshoots. -/
def adjustLast (duration : ℚ) (segments : List SpeechSegment) : List SpeechSegment :=
  match segments.getLast? with
  | none => segments
  | some last =>
    if duration < last.start + last.duration then
      segments.dropLast ++ [⟨last.text, last.start, duration - last.start⟩]
    else segments

/-- Embedding of `AvatarVideoRenderer._split_narration_into_segments` (the
narration text is represented by its whitespace-split word list; empty or
`None` narration corresponds to `[]`).  Python `int(x)` on the non-negative
values reached here is the floor; the float division by zero that Python
would raise on `duration = 0` with more than five words is modelled by
rational division, which is total. -/
def _split_narration_into_segments (narration_words : List String)
    (duration : ℚ) : List SpeechSegment :=
  if narration_words.isEmpty then defaultSegments
  else
    let total_words := narration_words.length
    let words_per_second : ℚ := 5 / 2
    let estimated_duration := (total_words : ℚ) / words_per_second
    let wps := if 2 < |estimated_duration - duration| then (total_words : ℚ) / duration
               else words_per_second
    let words_per_segment := max 2 (Int.toNat ⌊wps * (6 / 5)⌋)
    adjustLast duration (segLoop words_per_segment wps duration total_words narration_words 0)

/-- Word timings are contiguous: every word starts exactly where the previous
one ends. -/
def Contiguous : List WordTiming → Prop
  | [] => True
  | [_] => True
  | a :: b :: rest => b.start_time = a.end_time ∧ Contiguous (b :: rest)

/-- The start of a line's first word (the line's own start when the line has
no words; every line the segmenter produces has at least one word). -/
def fws (l : LineData) : ℚ :=
  match l.words.head? with
  | some w => w.start_time
  | none => l.start_time

/-- Adjacent produced lines are linked: every line after the first starts at
its own first word's start, and the preceding line ends at that same
instant. -/
def LineChain : List LineData → Prop
  | [] => True
  | [_] => True
  | a :: b :: rest => a.end_time = fws b ∧ b.start_time = fws b ∧ LineChain (b :: rest)

/-- The lines obtained from a segmenter loop state by flushing the pending
line with a given end instant, exactly as the tail of
`organize_text_into_lines` does. -/
def linesOf (r : List LineData × List WordTiming × String × ℚ) (e : ℚ) :
    List LineData :=
  r.1 ++ [⟨r.2.1, r.2.2.2, e, r.2.2.1, r.2.2.1.length⟩]

/-! ## Lemmas and claim theorems -/

lemma organizeLoop_words (mc : ℕ) :
    ∀ (wts cur : List WordTiming) (ct : String) (cs : ℚ),
      (organizeLoop mc wts cur ct cs).1.flatMap LineData.words
        ++ (organizeLoop mc wts cur ct cs).2.1 = cur ++ wts := by
  intro wts
  induction wts with
  | nil => intro cur ct cs; simp [organizeLoop]
  | cons wt rest ih =>
    intro cur ct cs
    simp only [organizeLoop]
    by_cases h : mc < (if ct = "" then wt.word else ct ++ " " ++ wt.word).length ∧ cur ≠ []
    · rw [if_pos h]
      have h2 := ih [wt] wt.word wt.start_time
      simp only [List.flatMap_cons]
      simp only [List.append_assoc]
      rw [h2]
      simp
    · rw [if_neg h]
      have h2 := ih (cur ++ [wt]) (if ct = "" then wt.word else ct ++ " " ++ wt.word) cs
      rw [h2]
      simp

/-- C2: concatenating, in output order, the word sequences of the lines
produced by `organize_text_into_lines` reproduces exactly the input word
sequence: no word is dropped, duplicated, shared between lines, or
reordered. -/
theorem segmenter_partition (mc : ℕ) (wts : List WordTiming) :
    (organize_text_into_lines mc wts).flatMap LineData.words = wts := by
  have h := organizeLoop_words mc wts [] "" 0
  unfold organize_text_into_lines
  by_cases he : (organizeLoop mc wts [] "" 0).2.1.isEmpty
  · rw [if_pos he]
    rw [List.isEmpty_iff] at he
    rw [he] at h
    simpa using h
  · rw [if_neg he]
    simpa using h

lemma estimateAux_ne_nil (avg : ℚ) (ws : List String) (c : ℚ) (h : ws ≠ []) :
    estimateAux avg ws c ≠ [] := by
  cases ws with
  | nil => exact absurd rfl h
  | cons w rest => simp [estimateAux]

lemma estimateAux_head (avg : ℚ) (w : String) (ws : List String) (c : ℚ) :
    (estimateAux avg (w :: ws) c).head?.map WordTiming.start_time = some c := by
  simp [estimateAux]

lemma contiguous_cons (a : WordTiming) (l : List WordTiming)
    (h1 : ∀ b ∈ l.head?, b.start_time = a.end_time) (h2 : Contiguous l) :
    Contiguous (a :: l) := by
  cases l with
  | nil => simp [Contiguous]
  | cons b t => exact ⟨h1 b (by simp), h2⟩

lemma estimateAux_contiguous (avg : ℚ) :
    ∀ (ws : List String) (c : ℚ), Contiguous (estimateAux avg ws c) := by
  intro ws
  induction ws with
  | nil => intro c; simp [estimateAux, Contiguous]
  | cons w rest ih =>
    intro c
    simp only [estimateAux]
    apply contiguous_cons
    · intro b hb
      cases rest with
      | nil => simp [estimateAux] at hb
      | cons w2 rest2 =>
        simp only [estimateAux, List.head?_cons, Option.mem_def,
          Option.some.injEq] at hb
        rw [← hb]
    · exact ih _

/-- C10: when the narration is non-empty, the estimated word timings are
contiguous from zero: the first word starts at 0 and every later word starts
exactly at the previous word's end. -/
theorem estimated_timings_contiguous (words : List String) (d : ℚ)
    (h : words ≠ []) :
    (_estimate_word_timings words d).head?.map WordTiming.start_time = some 0 ∧
    Contiguous (_estimate_word_timings words d) := by
  unfold _estimate_word_timings
  rw [if_neg (by simpa using h)]
  cases words with
  | nil => exact absurd rfl h
  | cons w rest =>
    exact ⟨estimateAux_head _ w rest 0, estimateAux_contiguous _ _ 0⟩

/-- Witness for C10 at the two-word narration of duration 10. -/
theorem estimated_timings_contiguous_witness :
    (_estimate_word_timings ["hi", "yo"] 10).head?.map WordTiming.start_time = some 0 ∧
    Contiguous (_estimate_word_timings ["hi", "yo"] 10) :=
  estimated_timings_contiguous ["hi", "yo"] 10 (by decide)

lemma takeWhile_length_mono (t1 t2 : ℚ) (h : t1 ≤ t2) :
    ∀ l : List ℚ, (l.takeWhile (fun c => decide (c ≤ t1))).length ≤
      (l.takeWhile (fun c => decide (c ≤ t2))).length := by
  intro l
  induction l with
  | nil => simp
  | cons c rest ih =>
    by_cases hc : c ≤ t1
    · have hc2 : c ≤ t2 := le_trans hc h
      simp only [List.takeWhile_cons]
      rw [if_pos (by simpa using hc), if_pos (by simpa using hc2)]
      simp only [List.length_cons]
      exact Nat.succ_le_succ ih
    · simp only [List.takeWhile_cons]
      rw [if_neg (by simpa using hc)]
      exact Nat.zero_le _

lemma wordTypedChars_mono (w : WordTiming)
    (hwf : w.char_positions.length ≤ w.word.length)
    (t1 t2 : ℚ) (h : t1 ≤ t2) : wordTypedChars w t1 ≤ wordTypedChars w t2 := by
  unfold wordTypedChars
  by_cases h1 : w.end_time ≤ t1
  · rw [if_pos h1, if_pos (le_trans h1 h)]
  · rw [if_neg h1]
    by_cases h2 : w.end_time ≤ t2
    · rw [if_pos h2]
      by_cases h3 : w.start_time ≤ t1
      · rw [if_pos h3]
        exact le_trans (List.takeWhile_sublist _).length_le hwf
      · rw [if_neg h3]
        exact Nat.zero_le _
    · rw [if_neg h2]
      by_cases h3 : w.start_time ≤ t1
      · rw [if_pos h3, if_pos (le_trans h3 h)]
        exact takeWhile_length_mono t1 t2 h _
      · rw [if_neg h3]
        exact Nat.zero_le _

/-- C1: for a fixed line whose per-word `char_positions` respect the data
model (at most one entry per character of the word, as both timing sources
guarantee), the typed length computed by `get_typing_progress` is monotonically
non-decreasing in the instant. -/
theorem typed_length_monotone (line : LineData)
    (hwf : ∀ w ∈ line.words, w.char_positions.length ≤ w.word.length)
    (t1 t2 : ℚ) (h : t1 ≤ t2) :
    get_typing_progress line t1 ≤ get_typing_progress line t2 := by
  unfold get_typing_progress
  by_cases h1 : t1 < line.start_time
  · rw [if_pos h1]
    exact Nat.zero_le _
  · rw [if_neg h1, if_neg (not_lt.mpr (le_trans (not_lt.mp h1) h))]
    refine min_le_min ?_ le_rfl
    exact List.sum_le_sum (fun w hw => wordTypedChars_mono w (hwf w hw) t1 t2 h)

/-- Witness for C1 on a one-word line between the instants 0 and 3. -/
theorem typed_length_monotone_witness :
    get_typing_progress ⟨[⟨"ab", 0, 2, [0, 1]⟩], 0, 2, "ab", 2⟩ 0 ≤
    get_typing_progress ⟨[⟨"ab", 0, 2, [0, 1]⟩], 0, 2, "ab", 2⟩ 3 :=
  typed_length_monotone ⟨[⟨"ab", 0, 2, [0, 1]⟩], 0, 2, "ab", 2⟩ (by decide) 0 3
    (by norm_num)

lemma mem_getVisibleAux (fd : ℚ) (m : ℕ) (t : ℚ) :
    ∀ (ls : List LineData) (n : ℕ) (l : LineData) (f : ℚ),
      (l, f) ∈ getVisibleAux fd m t ls n → fadeAt fd l t = some f := by
  intro ls
  induction ls with
  | nil => intro n l f h; simp [getVisibleAux] at h
  | cons line rest ih =>
    intro n l f h
    rw [getVisibleAux] at h
    cases hf : fadeAt fd line t with
    | none =>
      rw [hf] at h
      have h' : (l, f) ∈ getVisibleAux fd m t rest n := h
      exact ih _ _ _ h'
    | some g =>
      rw [hf] at h
      have h' : (l, f) ∈ (if m ≤ n + 1 then [(line, g)]
          else (line, g) :: getVisibleAux fd m t rest (n + 1)) := h
      by_cases hm : m ≤ n + 1
      · rw [if_pos hm] at h'
        simp only [List.mem_singleton, Prod.mk.injEq] at h'
        obtain ⟨rfl, rfl⟩ := h'
        exact hf
      · rw [if_neg hm] at h'
        rcases List.mem_cons.mp h' with h2 | h2
        · obtain ⟨rfl, rfl⟩ := Prod.mk.injEq .. ▸ h2
          exact hf
        · exact ih _ _ _ h2

lemma fadeAt_spec (fd : ℚ) (hfd : 0 < fd) (l : LineData) (t f : ℚ)
    (h : fadeAt fd l t = some f) :
    0 ≤ f ∧ f ≤ 1 ∧
    (t < l.start_time → f = (t - (l.start_time - fd)) / fd) ∧
    (l.start_time ≤ t → l.end_time < t → f = 1 - (t - l.end_time) / fd ∧ 0 < f) ∧
    (l.start_time ≤ t → t ≤ l.end_time → f = 1) := by
  unfold fadeAt at h
  by_cases h1 : l.start_time - fd ≤ t
  · rw [if_pos h1] at h
    by_cases h2 : t < l.start_time
    · rw [if_pos h2] at h
      have hf := Option.some.inj h
      refine ⟨?_, ?_, fun _ => hf.symm, fun h3 _ => absurd h3 (not_le.mpr h2),
        fun h3 _ => absurd h3 (not_le.mpr h2)⟩
      · rw [← hf]
        exact div_nonneg (by linarith) hfd.le
      · rw [← hf]
        rw [div_le_one hfd]
        linarith
    · rw [if_neg h2] at h
      by_cases h3 : l.end_time < t
      · rw [if_pos h3] at h
        by_cases h4 : 1 - (t - l.end_time) / fd ≤ 0
        · rw [if_pos h4] at h
          exact absurd h (by simp)
        · rw [if_neg h4] at h
          have hf := Option.some.inj h
          push_neg at h4
          have hq : 0 ≤ (t - l.end_time) / fd := div_nonneg (by linarith) hfd.le
          refine ⟨by linarith, by linarith, fun hc => absurd hc h2,
            fun _ _ => ⟨hf.symm, by linarith⟩,
            fun _ hc => absurd hc (not_le.mpr h3)⟩
      · rw [if_neg h3] at h
        have hf := Option.some.inj h
        refine ⟨by linarith, by linarith, fun hc => absurd hc h2,
          fun _ hc => absurd hc h3, fun _ _ => hf.symm⟩
  · rw [if_neg h1] at h
    exact absurd h (by simp)

/-- C9: every fade progress the resolver attaches to a visible line lies in
the interval from 0 to 1; before the line's start it is the leading ramp
value, strictly after the line's end it is the trailing ramp value and still
positive (a line whose trailing progress would be non-positive is never
returned), and during the line's own interval it is exactly 1. -/
theorem fade_progress_range (fd : ℚ) (m : ℕ) (lines : List LineData) (t : ℚ)
    (l : LineData) (f : ℚ) (hfd : 0 < fd)
    (hmem : (l, f) ∈ get_visible_lines_at_time fd m lines t) :
    0 ≤ f ∧ f ≤ 1 ∧
    (t < l.start_time → f = (t - (l.start_time - fd)) / fd) ∧
    (l.start_time ≤ t → l.end_time < t → f = 1 - (t - l.end_time) / fd ∧ 0 < f) ∧
    (l.start_time ≤ t → t ≤ l.end_time → f = 1) :=
  fadeAt_spec fd hfd l t f (mem_getVisibleAux fd m t lines 0 l f hmem)

/-- Witness for C9: a line spanning 0 to 10 observed at instant 0 with fade
duration 1/2 and cap 3. -/
theorem fade_progress_range_witness :
    0 ≤ (1 : ℚ) ∧ (1 : ℚ) ≤ 1 ∧
    ((0 : ℚ) < (⟨[], 0, 10, "", 0⟩ : LineData).start_time →
      (1 : ℚ) = (0 - ((⟨[], 0, 10, "", 0⟩ : LineData).start_time - 1/2)) / (1/2)) ∧
    ((⟨[], 0, 10, "", 0⟩ : LineData).start_time ≤ 0 →
      (⟨[], 0, 10, "", 0⟩ : LineData).end_time < 0 →
      (1 : ℚ) = 1 - (0 - (⟨[], 0, 10, "", 0⟩ : LineData).end_time) / (1/2) ∧ 0 < (1 : ℚ)) ∧
    ((⟨[], 0, 10, "", 0⟩ : LineData).start_time ≤ 0 →
      (0 : ℚ) ≤ (⟨[], 0, 10, "", 0⟩ : LineData).end_time → (1 : ℚ) = 1) :=
  fade_progress_range (1/2) 3 [⟨[], 0, 10, "", 0⟩] 0 ⟨[], 0, 10, "", 0⟩ 1
    (by norm_num)
    (by
      have hv : get_visible_lines_at_time (1/2) 3 [(⟨[], 0, 10, "", 0⟩ : LineData)] 0
          = [(⟨[], 0, 10, "", 0⟩, 1)] := by with_unfolding_all rfl
      rw [hv]
      exact List.mem_singleton_self _)

lemma getVisibleAux_take (fd : ℚ) (m : ℕ) (t : ℚ) :
    ∀ (ls : List LineData) (n : ℕ), n < m →
      getVisibleAux fd m t ls n =
        (ls.filterMap (fun l => (fadeAt fd l t).map (fun f => (l, f)))).take (m - n) := by
  intro ls
  induction ls with
  | nil => intro n _; simp [getVisibleAux]
  | cons line rest ih =>
    intro n hn
    rw [getVisibleAux, List.filterMap_cons]
    cases hf : fadeAt fd line t with
    | none => simpa using ih n hn
    | some f =>
      simp only [Option.map_some']
      by_cases hm : m ≤ n + 1
      · rw [if_pos hm]
        have h1 : m - n = 1 := by omega
        rw [h1]
        simp
      · rw [if_neg hm]
        rw [ih (n + 1) (by omega)]
        have h1 : m - n = (m - (n + 1)) + 1 := by omega
        rw [h1]
        rfl

/-- C4 amended: at most `max_lines` lines are returned, in timeline order;
the output is exactly the first `max_lines` entries of the visible-line list,
so when more than `max_lines` lines are simultaneously visible it is the
latest lines that are dropped and the earliest that are kept. -/
theorem visible_lines_take (fd : ℚ) (m : ℕ) (lines : List LineData) (t : ℚ)
    (hm : 1 ≤ m) :
    get_visible_lines_at_time fd m lines t =
      (lines.filterMap (fun l => (fadeAt fd l t).map (fun f => (l, f)))).take m ∧
    (get_visible_lines_at_time fd m lines t).length ≤ m := by
  have h := getVisibleAux_take fd m t lines 0 (by omega)
  rw [Nat.sub_zero] at h
  refine ⟨h, ?_⟩
  rw [get_visible_lines_at_time, h]
  exact le_trans (List.length_take_le _ _) le_rfl

/-- Witness for C4 at fade duration 1/2, cap 3, four simultaneously visible
lines, instant 50. -/
theorem visible_lines_take_witness :
    get_visible_lines_at_time (1/2) 3
        [⟨[], 0, 100, "", 0⟩, ⟨[], 1, 100, "", 0⟩, ⟨[], 2, 100, "", 0⟩, ⟨[], 3, 100, "", 0⟩] 50 =
      ([⟨[], 0, 100, "", 0⟩, ⟨[], 1, 100, "", 0⟩, ⟨[], 2, 100, "", 0⟩,
        (⟨[], 3, 100, "", 0⟩ : LineData)].filterMap
          (fun l => (fadeAt (1/2) l 50).map (fun f => (l, f)))).take 3 ∧
    (get_visible_lines_at_time (1/2) 3
        [⟨[], 0, 100, "", 0⟩, ⟨[], 1, 100, "", 0⟩, ⟨[], 2, 100, "", 0⟩,
         ⟨[], 3, 100, "", 0⟩] 50).length ≤ 3 :=
  visible_lines_take (1/2) 3
    [⟨[], 0, 100, "", 0⟩, ⟨[], 1, 100, "", 0⟩, ⟨[], 2, 100, "", 0⟩, ⟨[], 3, 100, "", 0⟩]
    50 (by omega)

/-- Counterexample to C4 as stated: with cap 3 and four lines all fully
visible at instant 50, the resolver keeps the three earliest-starting lines
and drops the latest one, not the oldest. -/
theorem visible_lines_counterexample :
    get_visible_lines_at_time (1/2) 3
        [⟨[], 0, 100, "", 0⟩, ⟨[], 1, 100, "", 0⟩, ⟨[], 2, 100, "", 0⟩,
         ⟨[], 3, 100, "", 0⟩] 50 =
      [(⟨[], 0, 100, "", 0⟩, 1), (⟨[], 1, 100, "", 0⟩, 1), (⟨[], 2, 100, "", 0⟩, 1)] ∧
    ¬ ((⟨[], 3, 100, "", 0⟩ : LineData) ∈
        (get_visible_lines_at_time (1/2) 3
          [⟨[], 0, 100, "", 0⟩, ⟨[], 1, 100, "", 0⟩, ⟨[], 2, 100, "", 0⟩,
           ⟨[], 3, 100, "", 0⟩] 50).map Prod.fst) := by
  have hv : get_visible_lines_at_time (1/2) 3
      [⟨[], 0, 100, "", 0⟩, ⟨[], 1, 100, "", 0⟩, ⟨[], 2, 100, "", 0⟩,
       ⟨[], 3, 100, "", 0⟩] 50 =
      [(⟨[], 0, 100, "", 0⟩, 1), (⟨[], 1, 100, "", 0⟩, 1), (⟨[], 2, 100, "", 0⟩, 1)] := by
    with_unfolding_all rfl
  refine ⟨hv, ?_⟩
  rw [hv]
  intro hmem
  simp only [List.map_cons, List.map_nil, List.mem_cons, List.not_mem_nil] at hmem
  rcases hmem with h | h | h | h
  · exact absurd (congrArg LineData.start_time h) (by norm_num)
  · exact absurd (congrArg LineData.start_time h) (by norm_num)
  · exact absurd (congrArg LineData.start_time h) (by norm_num)
  · exact h

lemma linesOf_ne_nil (r : List LineData × List WordTiming × String × ℚ) (e : ℚ) :
    linesOf r e ≠ [] := by
  simp [linesOf]

lemma organizeLoop_inv (mc : ℕ) :
    ∀ (wts cur : List WordTiming) (ct : String) (cs : ℚ), cur ≠ [] →
      (organizeLoop mc wts cur ct cs).2.1 ≠ [] ∧
      ∀ e : ℚ,
        LineChain (linesOf (organizeLoop mc wts cur ct cs) e) ∧
        (linesOf (organizeLoop mc wts cur ct cs) e).head?.map LineData.start_time
          = some cs ∧
        (linesOf (organizeLoop mc wts cur ct cs) e).head?.map
          (fun l => l.words.head?) = some cur.head? ∧
        ∀ l ∈ linesOf (organizeLoop mc wts cur ct cs) e, l.words ≠ [] := by
  intro wts
  induction wts with
  | nil =>
    intro cur ct cs hcur
    refine ⟨by simpa [organizeLoop] using hcur, fun e => ?_⟩
    refine ⟨by simp [organizeLoop, linesOf, LineChain], ?_, ?_, ?_⟩
    · simp [organizeLoop, linesOf]
    · simp [organizeLoop, linesOf]
    · intro l hl
      simp [organizeLoop, linesOf] at hl
      rw [hl]
      exact hcur
  | cons wt rest ih =>
    intro cur ct cs hcur
    by_cases hcond : mc < (if ct = "" then wt.word else ct ++ " " ++ wt.word).length ∧ cur ≠ []
    · have hunf : organizeLoop mc (wt :: rest) cur ct cs
          = (⟨cur, cs, wt.start_time, ct, ct.length⟩ ::
              (organizeLoop mc rest [wt] wt.word wt.start_time).1,
             (organizeLoop mc rest [wt] wt.word wt.start_time).2) := by
        rw [organizeLoop, if_pos hcond]
      obtain ⟨hcw, hrest⟩ := ih [wt] wt.word wt.start_time (by simp)
      rw [hunf]
      refine ⟨hcw, fun e => ?_⟩
      obtain ⟨hch, hhd, hwh, hne⟩ := hrest e
      have hlo : linesOf (⟨cur, cs, wt.start_time, ct, ct.length⟩ ::
            (organizeLoop mc rest [wt] wt.word wt.start_time).1,
            (organizeLoop mc rest [wt] wt.word wt.start_time).2) e
          = ⟨cur, cs, wt.start_time, ct, ct.length⟩ ::
            linesOf (organizeLoop mc rest [wt] wt.word wt.start_time) e := by
        simp [linesOf]
      rw [hlo]
      cases hL : linesOf (organizeLoop mc rest [wt] wt.word wt.start_time) e with
      | nil => exact absurd hL (linesOf_ne_nil _ _)
      | cons b tail =>
        rw [hL] at hch hhd hwh hne
        simp only [List.head?_cons, Option.map_some', Option.some.injEq] at hhd hwh
        have hfwsb : fws b = wt.start_time := by
          rw [fws, hwh]
        refine ⟨⟨hfwsb.symm, by rw [hhd, hfwsb], hch⟩, by simp, by simp, ?_⟩
        intro l hl
        rcases List.mem_cons.mp hl with h | h
        · rw [h]
          exact hcur
        · exact hne l h
    · have hunf : organizeLoop mc (wt :: rest) cur ct cs
          = organizeLoop mc rest (cur ++ [wt])
              (if ct = "" then wt.word else ct ++ " " ++ wt.word) cs := by
        rw [organizeLoop, if_neg hcond]
      obtain ⟨hcw, hrest⟩ := ih (cur ++ [wt])
        (if ct = "" then wt.word else ct ++ " " ++ wt.word) cs (by simp)
      rw [hunf]
      refine ⟨hcw, fun e => ?_⟩
      obtain ⟨hch, hhd, hwh, hne⟩ := hrest e
      refine ⟨hch, hhd, ?_, hne⟩
      rw [hwh]
      cases cur with
      | nil => exact absurd rfl hcur
      | cons c cs2 => simp

lemma organize_props (mc : ℕ) (wts : List WordTiming) (h : wts ≠ []) :
    organize_text_into_lines mc wts ≠ [] ∧
    LineChain (organize_text_into_lines mc wts) ∧
    (organize_text_into_lines mc wts).head?.map LineData.start_time = some 0 ∧
    (organize_text_into_lines mc wts).getLast?.map LineData.end_time
      = wts.getLast?.map WordTiming.end_time ∧
    ∀ l ∈ organize_text_into_lines mc wts, l.words ≠ [] := by
  cases wts with
  | nil => exact absurd rfl h
  | cons w rest =>
    have hstep : organizeLoop mc (w :: rest) [] "" 0
        = organizeLoop mc rest [w] w.word 0 := by
      rw [organizeLoop, if_neg (by simp)]
      simp
    obtain ⟨hcw, hrest⟩ := organizeLoop_inv mc rest [w] w.word 0 (by simp)
    have horg : organize_text_into_lines mc (w :: rest)
        = linesOf (organizeLoop mc rest [w] w.word 0)
            (match (w :: rest).getLast? with
             | some w' => w'.end_time
             | none => (organizeLoop mc rest [w] w.word 0).2.2.2) := by
      rw [organize_text_into_lines, hstep,
        if_neg (by simpa [List.isEmpty_iff] using hcw)]
      rfl
    obtain ⟨hch, hhd, _, hne⟩ := hrest
      (match (w :: rest).getLast? with
       | some w' => w'.end_time
       | none => (organizeLoop mc rest [w] w.word 0).2.2.2)
    rw [horg]
    refine ⟨linesOf_ne_nil _ _, hch, hhd, ?_, hne⟩
    rw [linesOf, List.getLast?_concat]
    cases hgl : (w :: rest).getLast? with
    | none => simp at hgl
    | some lw => simp [hgl]

/-- C8 amended: line boundaries as the code computes them: every line after
the first starts at its own first word's start while the first line always
starts at 0; every non-final line ends at the start of the next line's first
word (the word whose arrival flushed it); the final line ends at the last
input word's end; and every produced line holds at least one word. -/
theorem line_bounds_chain (mc : ℕ) (wts : List WordTiming) (h : wts ≠ []) :
    LineChain (organize_text_into_lines mc wts) ∧
    (organize_text_into_lines mc wts).head?.map LineData.start_time = some 0 ∧
    (organize_text_into_lines mc wts).getLast?.map LineData.end_time
      = wts.getLast?.map WordTiming.end_time ∧
    ∀ l ∈ organize_text_into_lines mc wts, l.words ≠ [] :=
  (organize_props mc wts h).2

/-- Witness for C8 at character budget 3 and the two words used by the
counterexample. -/
theorem line_bounds_chain_witness :
    LineChain (organize_text_into_lines 3 [⟨"aaaa", 1, 2, []⟩, ⟨"b", 3, 4, []⟩]) ∧
    (organize_text_into_lines 3 [⟨"aaaa", 1, 2, []⟩, ⟨"b", 3, 4, []⟩]).head?.map
        LineData.start_time = some 0 ∧
    (organize_text_into_lines 3 [⟨"aaaa", 1, 2, []⟩, ⟨"b", 3, 4, []⟩]).getLast?.map
        LineData.end_time
      = ([⟨"aaaa", 1, 2, []⟩, (⟨"b", 3, 4, []⟩ : WordTiming)]).getLast?.map
          WordTiming.end_time ∧
    ∀ l ∈ organize_text_into_lines 3 [⟨"aaaa", 1, 2, []⟩, ⟨"b", 3, 4, []⟩],
      l.words ≠ [] :=
  line_bounds_chain 3 [⟨"aaaa", 1, 2, []⟩, ⟨"b", 3, 4, []⟩] (by simp)

/-- Counterexample to C8 as stated: on the words "aaaa" spoken during the
interval from 1 to 2 and "b" spoken during the interval from 3 to 4, with
character budget 3, the first produced line starts at 0 (not at its first
word's start 1) and ends at 3, the start of the word that flushed it (not at
its last word's end 2). -/
theorem line_bounds_counterexample :
    organize_text_into_lines 3 [⟨"aaaa", 1, 2, []⟩, ⟨"b", 3, 4, []⟩]
      = [⟨[⟨"aaaa", 1, 2, []⟩], 0, 3, "aaaa", 4⟩, ⟨[⟨"b", 3, 4, []⟩], 3, 4, "b", 1⟩] ∧
    (0 : ℚ) ≠ 1 ∧ (3 : ℚ) ≠ 2 := by
  refine ⟨by with_unfolding_all rfl, by norm_num, by norm_num⟩

lemma estimateAux_cons (avg : ℚ) (w : String) (ws : List String) (c : ℚ) :
    estimateAux avg (w :: ws) c
      = ⟨w, c, c + avg * ((w.length : ℚ) / 5),
          _estimate_char_timings w c (c + avg * ((w.length : ℚ) / 5))⟩
        :: estimateAux avg ws (c + avg * ((w.length : ℚ) / 5)) := by
  rw [estimateAux]

lemma estimateAux_getLast (avg : ℚ) :
    ∀ (ws : List String) (c : ℚ), ws ≠ [] →
      (estimateAux avg ws c).getLast?.map WordTiming.end_time
        = some (c + avg * ((ws.map String.length).sum : ℚ) / 5) := by
  intro ws
  induction ws with
  | nil => intro c hc; exact absurd rfl hc
  | cons w rest ih =>
    intro c _
    rw [estimateAux_cons]
    cases rest with
    | nil =>
      simp [estimateAux]
      ring
    | cons w2 r2 =>
      have hne : estimateAux avg (w2 :: r2) (c + avg * ((w.length : ℚ) / 5)) ≠ [] :=
        estimateAux_ne_nil _ _ _ (by simp)
      cases hL : estimateAux avg (w2 :: r2) (c + avg * ((w.length : ℚ) / 5)) with
      | nil => exact absurd hL hne
      | cons b tail =>
        rw [List.getLast?_cons_cons]
        rw [← hL, ih (c + avg * ((w.length : ℚ) / 5)) (by simp)]
        congr 1
        simp only [List.map_cons, List.sum_cons]
        push_cast
        ring

/-- C5 amended: without a transcript the estimator's final word ends at
`duration * totalChars / (5 * wordCount)`, and the final line segment of the
segmenter run on those timings ends at that same instant; this equals the
audio duration exactly only when the mean word length is five characters. -/
theorem estimator_last_end_formula (mc : ℕ) (words : List String) (d : ℚ)
    (h : words ≠ []) :
    (_estimate_word_timings words d).getLast?.map WordTiming.end_time
      = some (d * ((words.map String.length).sum : ℚ) / (5 * words.length)) ∧
    (organize_text_into_lines mc (_estimate_word_timings words d)).getLast?.map
        LineData.end_time
      = some (d * ((words.map String.length).sum : ℚ) / (5 * words.length)) := by
  have hlen : (words.length : ℚ) ≠ 0 := by
    simpa using List.length_pos.mpr h |>.ne'
  have hne : _estimate_word_timings words d ≠ [] := by
    rw [_estimate_word_timings, if_neg (by simpa [List.isEmpty_iff] using h)]
    exact estimateAux_ne_nil _ _ _ h
  have h1 : (_estimate_word_timings words d).getLast?.map WordTiming.end_time
      = some (d * ((words.map String.length).sum : ℚ) / (5 * words.length)) := by
    rw [_estimate_word_timings, if_neg (by simpa [List.isEmpty_iff] using h)]
    rw [estimateAux_getLast _ words 0 h]
    congr 1
    field_simp
    left
    ring
  refine ⟨h1, ?_⟩
  rw [(organize_props mc _ hne).2.2.2.1, h1]

/-- Witness for C5 on the one-word narration "hi" with duration 10. -/
theorem estimator_last_end_formula_witness :
    (_estimate_word_timings ["hi"] 10).getLast?.map WordTiming.end_time
      = some (10 * (((["hi"] : List String).map String.length).sum : ℚ) / (5 * 1)) ∧
    (organize_text_into_lines 60 (_estimate_word_timings ["hi"] 10)).getLast?.map
        LineData.end_time
      = some (10 * (((["hi"] : List String).map String.length).sum : ℚ) / (5 * 1)) :=
  estimator_last_end_formula 60 ["hi"] 10 (by simp)

/-- Counterexample to C5 as stated: for the narration "hi" with audio
duration 10 the estimated last word ends at 4, not at the duration 10, and
the final line segment inherits that same end 4. -/
theorem estimator_last_end_counterexample :
    (_estimate_word_timings ["hi"] 10).getLast?.map WordTiming.end_time = some 4 ∧
    (organize_text_into_lines 60 (_estimate_word_timings ["hi"] 10)).getLast?.map
        LineData.end_time = some 4 ∧
    (4 : ℚ) ≠ 10 := by
  refine ⟨by with_unfolding_all rfl, by with_unfolding_all rfl, by norm_num⟩

/-- C6 amended: the estimator never fails: on empty narration it returns the
empty timing list for every duration, including zero and negative ones, and
the job-level fallback for empty narration substitutes exactly the five
hard-coded placeholder segments, not one. -/
theorem empty_narration_fallback (d : ℚ) :
    _estimate_word_timings [] d = [] ∧
    _split_narration_into_segments [] d = defaultSegments ∧
    defaultSegments.length = 5 := by
  refine ⟨by rw [_estimate_word_timings]; rfl, ?_, rfl⟩
  rw [_split_narration_into_segments]
  rfl

/-- Counterexample to C6 as stated: at the claimed failing input (empty
narration, duration 0) the estimator returns an ordinary value, the empty
timing list, instead of failing, and the job-level fallback substitutes five
placeholder segments rather than exactly one. -/
theorem estimation_error_counterexample :
    _estimate_word_timings [] 0 = [] ∧
    (_split_narration_into_segments [] 0).length = 5 ∧ (5 : ℕ) ≠ 1 := by
  refine ⟨by with_unfolding_all rfl, by with_unfolding_all rfl, by norm_num⟩

/-- C3 is contradicted by the code: in the single ten-word window of the
two-word narration "function loop" with duration 1, the analyzer emits two
triggers, one per matching table entry, because the `break` leaves only the
keyword loop; the code's own comment and the claim allow at most one. -/
theorem analyzer_two_triggers_per_window :
    analyze_narration ["function", "loop"] 1
      = [⟨"function", 0, 2, "function loop", "function", "🔧", (255, 100, 100)⟩,
         ⟨"loop", 0, 2, "function loop", "loop", "🔄", (100, 255, 100)⟩] ∧
    (analyze_narration ["function", "loop"] 1).length = 2 := by
  refine ⟨by with_unfolding_all rfl, by with_unfolding_all rfl⟩

/-- C7 is contradicted by the code: the analyzer labels its triggers with the
table kinds such as "function", but the overlay dispatch compares the label
against the animation names such as "function_call", so even at an instant
inside the trigger's window no overlay is produced. -/
theorem overlay_none_inside_window :
    analyze_narration ["function"] 2
      = [⟨"function", 0, 2, "function", "function", "🔧", (255, 100, 100)⟩] ∧
    create_animation_overlay
        ⟨"function", 0, 2, "function", "function", "🔧", (255, 100, 100)⟩ 1 = none ∧
    (0 : ℚ) ≤ 1 ∧ (1 : ℚ) ≤ 0 + 2 := by
  refine ⟨by with_unfolding_all rfl, by with_unfolding_all rfl, by norm_num, by norm_num⟩

end Code2Video
